import Mathlib

/-!
# Verification of `funVoronoiUniform.py`

Shallow embedding of the uniform-point-on-Voronoi-cells routine
`funVoronoiUniform(voronoiData, xx, yy)`.

Modelling conventions:
* Real-valued coordinates and random draws are embedded as rationals (`ℚ`).
* The tessellation data (`voronoiData.vertices`, `voronoiData.regions`,
  `voronoiData.point_region`) is a structure of total maps; vertex-index
  rings are lists of `Int` where the sentinel `-1` marks the vertex at
  infinity, exactly as in SciPy's output consumed by the source.
* `np.sqrt` is not closed on `ℚ`, so the driver is parametrised by a
  function `sq : ℚ → ℚ` standing for the square root; theorems that need
  the square-root property carry the hypotheses `0 ≤ s` and `s ^ 2 = r`.
  `ratSqrt` computes the exact square root for perfect-square rationals
  and instantiates `sq` in concrete runs.
* A NumPy operation that raises (`argmax` of an empty array, an
  out-of-range index) is embedded as `none`; the driver propagates it,
  modelling the uncaught exception.  Note on `cdfArea = cumsum/areaPoly`
  when `areaPoly = 0`: NumPy produces NaN entries, for which every
  comparison `r <= nan` is false; in `ℚ` division by zero yields `0`,
  for which `r ≤ 0` is false for every positive draw `r`.  Either way
  the subsequent `argmax` of an all-false array selects index `0`, so
  the embedding and the code agree on the observable selection.
-/

/-- The tessellation data consumed by the driver: the vertex coordinate
table, the per-region vertex-index rings, and the point-to-region index
mapping (`voronoiData.vertices`, `voronoiData.regions`,
`voronoiData.point_region` in the source). -/
structure VoronoiData where
  vertices : Int → ℚ × ℚ
  regions : ℕ → List Int
  point_region : ℕ → ℕ

/-- Cell classifier, source line
`booleBounded[ii] = not(any(np.array(cellAll[indexP2C[ii]]) == -1))`:
a ring is bounded when no entry equals the sentinel `-1`. -/
def booleBounded (ring : List Int) : Bool :=
  !(ring.any (fun v => v == -1))

/-- The ring of the cell of generating point `ii`, resolved through the
point-to-region mapping: `cellAll[indexP2C[ii]]`. -/
def cellRing (vor : VoronoiData) (ii : ℕ) : List Int :=
  vor.regions (vor.point_region ii)

/-- x-coordinates of a ring's vertices: `vertexAll[cellAll[indexP2C[ii]], 0]`. -/
def xxCellOf (vert : Int → ℚ × ℚ) (ring : List Int) : List ℚ :=
  ring.map (fun k => (vert k).1)

/-- y-coordinates of a ring's vertices: `vertexAll[cellAll[indexP2C[ii]], 1]`. -/
def yyCellOf (vert : Int → ℚ × ℚ) (ring : List Int) : List ℚ :=
  ring.map (fun k => (vert k).2)

/-- The vertex-index wrap used by the source: `indexVertex = arange(numbTri+1)`
with `indexVertex[-1] = 0`, so position `i+1` holds `i+1` except at the end,
where it holds `0`. -/
def wrapIdx (m i : ℕ) : ℕ :=
  if i + 1 = m then 0 else i + 1

/-- Fan-triangulation areas, source lines
`areaTri = abs((xxCell[indexVertex1]-xx0)*(yyCell[indexVertex2]-yy0)
- (xxCell[indexVertex2]-xx0)*(yyCell[indexVertex1]-yy0))/2`. -/
def areaTriList (x0 y0 : ℚ) (xs ys : List ℚ) : List ℚ :=
  (List.range xs.length).map (fun i =>
    |(xs.getD i 0 - x0) * (ys.getD (wrapIdx xs.length i) 0 - y0) -
      (xs.getD (wrapIdx xs.length i) 0 - x0) * (ys.getD i 0 - y0)| / 2)

/-- Running prefix sums, embedding `np.cumsum`. -/
def cumsum : List ℚ → List ℚ
  | [] => []
  | a :: rest => a :: (cumsum rest).map (fun c => a + c)

/-- The triangle CDF, source line `cdfArea = np.cumsum(areaTri)/areaPoly`
with `areaPoly = sum(areaTri)`. -/
def cdfAreaOf (areaTri : List ℚ) : List ℚ :=
  (cumsum areaTri).map (fun c => c / areaTri.sum)

/-- Index of the first `true`, embedding NumPy `argmax` on a boolean
array (which returns the first maximal entry); `none` on the empty list,
where NumPy `argmax` raises. -/
def firstTrue : List Bool → Option ℕ
  | [] => none
  | true :: _ => some 0
  | false :: rest => (firstTrue rest).map (fun i => i + 1)

/-- Triangle selection, source line
`indexTri = (np.random.rand() <= cdfArea).argmax()`: the first index whose
CDF entry is `≥ r`, and index `0` when no entry is (all comparisons false);
`none` models the `ValueError` NumPy raises on an empty array. -/
def indexTriOf (r : ℚ) : List ℚ → Option ℕ
  | [] => none
  | c :: cs =>
      some ((firstTrue (List.map (fun x => decide (r ≤ x)) (c :: cs))).getD 0)

/-- One coordinate of the square-root barycentric transform, source lines
`uu[ii] = (1-np.sqrt(uniRand1))*xxTri[0] + np.sqrt(uniRand1)*(1-uniRand2)*xxTri[1]
+ np.sqrt(uniRand1)*uniRand2*xxTri[2]`, with `s` standing for
`np.sqrt(uniRand1)`. -/
def sampleTriX (x0 x1 x2 s r2 : ℚ) : ℚ :=
  (1 - s) * x0 + s * (1 - r2) * x1 + s * r2 * x2

/-- The body of the bounded-cell branch of the source loop: triangulate the
cell, select a triangle with draw `r`, and place a point with draws
`r1, r2` (in that order).  `sq` stands for `np.sqrt`. -/
def placeCell (sq : ℚ → ℚ) (vert : Int → ℚ × ℚ) (x0 y0 : ℚ) (ring : List Int)
    (r r1 r2 : ℚ) : Option (ℚ × ℚ) :=
  let xxCell := xxCellOf vert ring
  let yyCell := yyCellOf vert ring
  let numbTri := xxCell.length
  let areaTri := areaTriList x0 y0 xxCell yyCell
  let cdfArea := cdfAreaOf areaTri
  match indexTriOf r cdfArea with
  | none => none
  | some indexTri =>
      let i1 := indexTri
      let i2 := wrapIdx numbTri indexTri
      let s := sq r1
      some (sampleTriX x0 (xxCell.getD i1 0) (xxCell.getD i2 0) s r2,
            sampleTriX y0 (yyCell.getD i1 0) (yyCell.getD i2 0) s r2)

/-- The source's per-cell loop over the generating-point indices, threading
the position `k` of the next unconsumed random draw in the stream `rand`.
A bounded cell consumes draws `k, k+1, k+2`; any other cell consumes none.
The accumulated entries are `(ii, uu[ii], vv[ii])` for the bounded cells,
in loop order. -/
def sampleLoop (sq : ℚ → ℚ) (vor : VoronoiData) (xx yy : List ℚ)
    (rand : ℕ → ℚ) : List ℕ → ℕ → Option (List (ℕ × ℚ × ℚ) × ℕ)
  | [], k => some ([], k)
  | ii :: rest, k =>
      if booleBounded (cellRing vor ii) then
        match xx.get? ii, yy.get? ii with
        | some x0, some y0 =>
            match placeCell sq vor.vertices x0 y0 (cellRing vor ii)
                (rand k) (rand (k + 1)) (rand (k + 2)) with
            | none => none
            | some p =>
                match sampleLoop sq vor xx yy rand rest (k + 3) with
                | none => none
                | some (acc, kEnd) => some ((ii, p.1, p.2) :: acc, kEnd)
        | _, _ => none
      else
        sampleLoop sq vor xx yy rand rest k

/-- The driver `funVoronoiUniform(voronoiData, xx, yy)`: loop over
`ii in range(numbCells)` with `numbCells = len(xx)`, then compact the
per-cell arrays to the bounded indices
(`indexBounded = np.arange(numbCells)[booleBounded]`,
`uu = uu[indexBounded]`, `vv = vv[indexBounded]`), returning
`(uu, vv, indexBounded)`. -/
def funVoronoiUniform (sq : ℚ → ℚ) (vor : VoronoiData) (xx yy : List ℚ)
    (rand : ℕ → ℚ) : Option (List ℚ × List ℚ × List ℕ) :=
  match sampleLoop sq vor xx yy rand (List.range xx.length) 0 with
  | none => none
  | some (acc, _) =>
      some (acc.map (fun t => t.2.1), acc.map (fun t => t.2.2),
            acc.map (fun t => t.1))

/-- Instrumentation: the total number of random draws a run consumes
(the final stream position of the loop), used to state the
randomness-consumption contract. -/
def drawsUsed (sq : ℚ → ℚ) (vor : VoronoiData) (xx yy : List ℚ)
    (rand : ℕ → ℚ) : Option ℕ :=
  match sampleLoop sq vor xx yy rand (List.range xx.length) 0 with
  | none => none
  | some (_, k) => some k

/-- The generating-point indices whose resolved region is bounded, in the
order of `l`. -/
def boundedIndices (vor : VoronoiData) (l : List ℕ) : List ℕ :=
  l.filter (fun ii => booleBounded (cellRing vor ii))

/-- Exact square root for perfect-square rationals (`ratSqrt (1/4) = 1/2`),
used to instantiate the `np.sqrt` parameter on concrete runs. -/
def ratSqrt (q : ℚ) : ℚ :=
  (Nat.sqrt (q.num.toNat * q.den) : ℚ) / (q.den : ℚ)

/-- Membership in the closed triangle with vertices `a`, `b`, `c`: the
point is a convex combination of the three vertices. -/
def memTriangle (p a b c : ℚ × ℚ) : Prop :=
  ∃ al be ga : ℚ, 0 ≤ al ∧ 0 ≤ be ∧ 0 ≤ ga ∧ al + be + ga = 1 ∧
    p.1 = al * a.1 + be * b.1 + ga * c.1 ∧
    p.2 = al * a.2 + be * b.2 + ga * c.2

/-- The square cell of the spec's concrete scenario: vertices
`(0,0), (1,0), (1,1), (0,1)` forming region `0`, identity point-to-region
mapping. -/
def vorSquare : VoronoiData :=
  { vertices := fun k =>
      if k = 0 then (0, 0) else if k = 1 then (1, 0)
      else if k = 2 then (1, 1) else (0, 1)
    regions := fun j => if j = 0 then [0, 1, 2, 3] else []
    point_region := fun i => i }

/-- The draw stream of the spec's concrete scenario: selection draw `0.3`,
then `r1 = 0.25`, `r2 = 0.5`. -/
def randSquare : ℕ → ℚ :=
  fun n => if n = 0 then 3 / 10 else if n = 1 then 1 / 4
           else if n = 2 then 1 / 2 else 0

/-! ## Helper lemmas -/

theorem getLast?_map_eq (f : ℚ → ℚ) (l : List ℚ) :
    (l.map f).getLast? = (l.getLast?).map f := by
  rw [List.getLast?_eq_get?, List.getLast?_eq_get?, List.get?_map,
    List.length_map]

theorem getLast?_cons_of_ne_nil (a : ℚ) (l : List ℚ) (h : l ≠ []) :
    (a :: l).getLast? = l.getLast? := by
  cases l with
  | nil => exact absurd rfl h
  | cons b t => exact List.getLast?_cons_cons

theorem cumsum_length (l : List ℚ) : (cumsum l).length = l.length := by
  induction l with
  | nil => rfl
  | cons a rest ih => simp [cumsum, ih]

theorem cumsum_ne_nil (l : List ℚ) (h : l ≠ []) : cumsum l ≠ [] := by
  intro hh
  have := congrArg List.length hh
  rw [cumsum_length] at this
  exact h (List.eq_nil_of_length_eq_zero this)

theorem cumsum_getLast? (l : List ℚ) (h : l ≠ []) :
    (cumsum l).getLast? = some l.sum := by
  induction l with
  | nil => exact absurd rfl h
  | cons a rest ih =>
    cases rest with
    | nil => simp [cumsum]
    | cons b rest2 =>
      have hne : cumsum (b :: rest2) ≠ [] := cumsum_ne_nil _ (by simp)
      have hmapne : (cumsum (b :: rest2)).map (fun c => a + c) ≠ [] := by
        simpa using hne
      rw [show cumsum (a :: b :: rest2) =
            a :: (cumsum (b :: rest2)).map (fun c => a + c) from rfl,
        getLast?_cons_of_ne_nil _ _ hmapne, getLast?_map_eq,
        ih (by simp)]
      simp

theorem cdfAreaOf_length (l : List ℚ) : (cdfAreaOf l).length = l.length := by
  simp [cdfAreaOf, cumsum_length]

theorem areaTriList_length (x0 y0 : ℚ) (xs ys : List ℚ) :
    (areaTriList x0 y0 xs ys).length = xs.length := by
  simp [areaTriList]

theorem xxCellOf_length (vert : Int → ℚ × ℚ) (ring : List Int) :
    (xxCellOf vert ring).length = ring.length := by
  simp [xxCellOf]

theorem yyCellOf_length (vert : Int → ℚ × ℚ) (ring : List Int) :
    (yyCellOf vert ring).length = ring.length := by
  simp [yyCellOf]

/-- The final entry of the normalized cumulative-area sequence is exactly
`1` whenever the total area is nonzero. -/
theorem cdfAreaOf_getLast? (areas : List ℚ) (h : areas.sum ≠ 0) :
    (cdfAreaOf areas).getLast? = some 1 := by
  have hne : areas ≠ [] := by
    intro hh; rw [hh] at h; exact h rfl
  rw [cdfAreaOf, getLast?_map_eq, cumsum_getLast? _ hne]
  simp [div_self h]

theorem firstTrue_spec {bs : List Bool} {i : ℕ} (h : firstTrue bs = some i) :
    bs.get? i = some true ∧ ∀ j, j < i → bs.get? j = some false := by
  induction bs generalizing i with
  | nil => simp [firstTrue] at h
  | cons b rest ih =>
    cases b with
    | true =>
      simp only [firstTrue, Option.some.injEq] at h
      subst h
      exact ⟨rfl, fun j hj => absurd hj (Nat.not_lt_zero j)⟩
    | false =>
      simp only [firstTrue, Option.map_eq_some'] at h
      obtain ⟨i0, hi0, rfl⟩ := h
      obtain ⟨h1, h2⟩ := ih hi0
      refine ⟨h1, fun j hj => ?_⟩
      cases j with
      | zero => rfl
      | succ j0 => exact h2 j0 (Nat.lt_of_succ_lt_succ hj)

theorem firstTrue_isSome {bs : List Bool} (h : true ∈ bs) :
    ∃ i, firstTrue bs = some i := by
  induction bs with
  | nil => simp at h
  | cons b rest ih =>
    cases b with
    | true => exact ⟨0, rfl⟩
    | false =>
      have hrest : true ∈ rest := by simpa using h
      obtain ⟨i, hi⟩ := ih hrest
      exact ⟨i + 1, by simp [firstTrue, hi]⟩

/-- On a nonempty CDF the selector always returns an index, and that index
is in range (NumPy `argmax` of an all-false array returns `0`). -/
theorem indexTriOf_eq_some (r : ℚ) (cdf : List ℚ) (h : cdf ≠ []) :
    ∃ i, indexTriOf r cdf = some i ∧ i < cdf.length := by
  cases cdf with
  | nil => exact absurd rfl h
  | cons c cs =>
    refine ⟨(firstTrue (List.map (fun x => decide (r ≤ x)) (c :: cs))).getD 0,
      rfl, ?_⟩
    cases hf : firstTrue (List.map (fun x => decide (r ≤ x)) (c :: cs)) with
    | none => simp
    | some i =>
      have := (firstTrue_spec hf).1
      have hlt : i < (List.map (fun x => decide (r ≤ x)) (c :: cs)).length := by
        by_contra hge
        rw [List.get?_eq_none.mpr (Nat.le_of_not_lt hge)] at this
        exact Option.noConfusion this
      simpa using hlt

/-- When some CDF entry is `≥ r`, the selector returns the least index
whose entry is `≥ r` (every earlier entry is `< r`). -/
theorem indexTriOf_found (r : ℚ) (cdf : List ℚ) {c : ℚ} (hc : c ∈ cdf)
    (hrc : r ≤ c) :
    ∃ i ci, indexTriOf r cdf = some i ∧ cdf.get? i = some ci ∧ r ≤ ci ∧
      ∀ j cj, j < i → cdf.get? j = some cj → cj < r := by
  have hmem : true ∈ List.map (fun x => decide (r ≤ x)) cdf := by
    rw [List.mem_map]
    exact ⟨c, hc, by simp [hrc]⟩
  obtain ⟨i, hi⟩ := firstTrue_isSome hmem
  obtain ⟨h1, h2⟩ := firstTrue_spec hi
  rw [List.get?_map] at h1
  cases hci : cdf.get? i with
  | none => rw [hci] at h1; exact Option.noConfusion h1
  | some ci =>
    rw [hci] at h1
    have hrci : r ≤ ci := by
      have : decide (r ≤ ci) = true := by simpa using h1
      exact of_decide_eq_true this
    have hidx : indexTriOf r cdf = some i := by
      cases cdf with
      | nil => simp at hc
      | cons c0 cs0 =>
        show some ((firstTrue
          (List.map (fun x => decide (r ≤ x)) (c0 :: cs0))).getD 0) = some i
        rw [hi]
        rfl
    refine ⟨i, ci, hidx, hci, hrci, fun j cj hj hcj => ?_⟩
    have := h2 j hj
    rw [List.get?_map, hcj] at this
    have : decide (r ≤ cj) = false := by simpa using this
    exact lt_of_not_le (of_decide_eq_false this)

/-- For a nonempty ring the bounded-cell branch always produces a point:
triangulation, selection and placement are total there. -/
theorem placeCell_eq_some (sq : ℚ → ℚ) (vert : Int → ℚ × ℚ) (x0 y0 : ℚ)
    (ring : List Int) (r r1 r2 : ℚ) (h : ring ≠ []) :
    ∃ p, placeCell sq vert x0 y0 ring r r1 r2 = some p := by
  have hne : cdfAreaOf (areaTriList x0 y0 (xxCellOf vert ring)
      (yyCellOf vert ring)) ≠ [] := by
    intro hh
    have := congrArg List.length hh
    rw [cdfAreaOf_length, areaTriList_length, xxCellOf_length] at this
    exact h (List.eq_nil_of_length_eq_zero this)
  obtain ⟨i, hi, -⟩ := indexTriOf_eq_some r _ hne
  exact ⟨_, by rw [placeCell, hi]⟩

/-- Master specification of the driver loop on any index list `l`, under
the validity conditions the source relies on (each bounded cell has a
nonempty ring and in-range coordinates): the loop succeeds, consumes
exactly `3` draws per bounded cell, records exactly the bounded indices in
order, and feeds the `n`-th bounded cell the draws at positions
`k+3n, k+3n+1, k+3n+2` (selection draw first, then the two barycentric
draws). -/
theorem sampleLoop_spec (sq : ℚ → ℚ) (vor : VoronoiData) (xx yy : List ℚ)
    (rand : ℕ → ℚ) (l : List ℕ) :
    ∀ k : ℕ,
      (∀ ii ∈ l, booleBounded (cellRing vor ii) = true →
        cellRing vor ii ≠ [] ∧ ii < xx.length ∧ ii < yy.length) →
      ∃ acc, sampleLoop sq vor xx yy rand l k =
          some (acc, k + 3 * (boundedIndices vor l).length) ∧
        acc.map (fun t => t.1) = boundedIndices vor l ∧
        ∀ n ii, (boundedIndices vor l).get? n = some ii →
          ∃ x0 y0 p, xx.get? ii = some x0 ∧ yy.get? ii = some y0 ∧
            placeCell sq vor.vertices x0 y0 (cellRing vor ii)
              (rand (k + 3 * n)) (rand (k + 3 * n + 1))
              (rand (k + 3 * n + 2)) = some p ∧
            acc.get? n = some (ii, p.1, p.2) := by
  induction l with
  | nil =>
    intro k _
    exact ⟨[], by simp [sampleLoop, boundedIndices],
      by simp [boundedIndices],
      fun n ii h => by simp [boundedIndices] at h⟩
  | cons ii rest ih =>
    intro k hvalid
    by_cases hb : booleBounded (cellRing vor ii) = true
    · obtain ⟨hring, hxxlt, hyylt⟩ := hvalid ii (List.mem_cons_self ii rest) hb
      obtain ⟨x0, hx0⟩ : ∃ x0, xx.get? ii = some x0 :=
        ⟨_, List.get?_eq_get hxxlt⟩
      obtain ⟨y0, hy0⟩ : ∃ y0, yy.get? ii = some y0 :=
        ⟨_, List.get?_eq_get hyylt⟩
      obtain ⟨p, hp⟩ := placeCell_eq_some sq vor.vertices x0 y0
        (cellRing vor ii) (rand k) (rand (k + 1)) (rand (k + 2)) hring
      obtain ⟨acc, hloop, hmap, hper⟩ := ih (k + 3)
        (fun j hj hbj => hvalid j (List.mem_cons_of_mem _ hj) hbj)
      have hbl : boundedIndices vor (ii :: rest) =
          ii :: boundedIndices vor rest := by
        simp only [boundedIndices]
        exact List.filter_cons_of_pos hb
      refine ⟨(ii, p.1, p.2) :: acc, ?_, ?_, ?_⟩
      · simp only [sampleLoop]
        rw [if_pos hb, hx0, hy0]
        simp only [hp, hloop, hbl, List.length_cons]
        have e : k + 3 + 3 * (boundedIndices vor rest).length =
            k + 3 * ((boundedIndices vor rest).length + 1) := by ring
        rw [e]
      · simp only [List.map_cons, hmap, hbl]
      · intro n jj hjj
        rw [hbl] at hjj
        cases n with
        | zero =>
          have hjj0 : ii = jj := by simpa using hjj
          subst hjj0
          refine ⟨x0, y0, p, hx0, hy0, ?_, rfl⟩
          have e0 : k + 3 * 0 = k := by ring
          rw [e0]
          exact hp
        | succ n0 =>
          have hjj' : (boundedIndices vor rest).get? n0 = some jj := by
            simpa using hjj
          obtain ⟨x1, y1, p1, h1, h2, h3, h4⟩ := hper n0 jj hjj'
          refine ⟨x1, y1, p1, h1, h2, ?_, by simpa using h4⟩
          have e : k + 3 + 3 * n0 = k + 3 * (n0 + 1) := by ring
          rw [e] at h3
          exact h3
    · obtain ⟨acc, hloop, hmap, hper⟩ := ih k
        (fun j hj hbj => hvalid j (List.mem_cons_of_mem _ hj) hbj)
      have hbl : boundedIndices vor (ii :: rest) = boundedIndices vor rest := by
        simp only [boundedIndices]
        exact List.filter_cons_of_neg hb
      refine ⟨acc, ?_, by rw [hmap, hbl], ?_⟩
      · simp only [sampleLoop]
        rw [if_neg hb, hloop, hbl]
      · intro n jj hjj
        rw [hbl] at hjj
        exact hper n jj hjj

/-- The loop reads the draw stream only at the positions it consumes:
two streams agreeing on `[k, k + 3·#bounded)` produce identical runs. -/
theorem sampleLoop_congr_rand (sq : ℚ → ℚ) (vor : VoronoiData)
    (xx yy : List ℚ) (rand rand2 : ℕ → ℚ) (l : List ℕ) :
    ∀ k : ℕ,
      (∀ j, k ≤ j → j < k + 3 * (boundedIndices vor l).length →
        rand j = rand2 j) →
      sampleLoop sq vor xx yy rand l k =
        sampleLoop sq vor xx yy rand2 l k := by
  induction l with
  | nil => intro k _; rfl
  | cons ii rest ih =>
    intro k hag
    by_cases hb : booleBounded (cellRing vor ii) = true
    · have hbl : boundedIndices vor (ii :: rest) =
          ii :: boundedIndices vor rest := by
        simp only [boundedIndices]
        exact List.filter_cons_of_pos hb
      rw [hbl, List.length_cons] at hag
      have c0 : rand k = rand2 k := hag k le_rfl (by omega)
      have c1 : rand (k + 1) = rand2 (k + 1) := hag _ (by omega) (by omega)
      have c2 : rand (k + 2) = rand2 (k + 2) := hag _ (by omega) (by omega)
      have hrec : sampleLoop sq vor xx yy rand rest (k + 3) =
          sampleLoop sq vor xx yy rand2 rest (k + 3) :=
        ih (k + 3) (fun j hj1 hj2 => hag j (by omega) (by omega))
      simp only [sampleLoop]
      rw [if_pos hb, if_pos hb]
      simp only [c0, c1, c2, hrec]
    · have hbl : boundedIndices vor (ii :: rest) = boundedIndices vor rest := by
        simp only [boundedIndices]
        exact List.filter_cons_of_neg hb
      rw [hbl] at hag
      simp only [sampleLoop]
      rw [if_neg hb, if_neg hb]
      exact ih k hag

/-- The loop reads the tessellation only through the vertex table and the
composition of `regions` after `point_region`: the region indirection is
essential, not the identity. -/
theorem sampleLoop_congr_vor (sq : ℚ → ℚ) (vor vor2 : VoronoiData)
    (xx yy : List ℚ) (rand : ℕ → ℚ)
    (hvert : vor2.vertices = vor.vertices)
    (hring : ∀ i, cellRing vor2 i = cellRing vor i) (l : List ℕ) :
    ∀ k : ℕ, sampleLoop sq vor2 xx yy rand l k =
      sampleLoop sq vor xx yy rand l k := by
  induction l with
  | nil => intro k; rfl
  | cons ii rest ih =>
    intro k
    simp only [sampleLoop, hvert, hring, ih]

/-- The loop reads `yy` only below `xx.length`: entries of `yy` past the
cell count are never consulted. -/
theorem sampleLoop_take_yy (sq : ℚ → ℚ) (vor : VoronoiData)
    (xx yy : List ℚ) (rand : ℕ → ℚ) (l : List ℕ) :
    ∀ k : ℕ, (∀ ii ∈ l, ii < xx.length) →
      sampleLoop sq vor xx yy rand l k =
        sampleLoop sq vor xx (yy.take xx.length) rand l k := by
  induction l with
  | nil => intro k _; rfl
  | cons ii rest ih =>
    intro k hlt
    have hrest : ∀ j ∈ rest, j < xx.length :=
      fun j hj => hlt j (List.mem_cons_of_mem _ hj)
    have hyy : (yy.take xx.length).get? ii = yy.get? ii :=
      List.get?_take (hlt ii (List.mem_cons_self ii rest))
    simp only [sampleLoop, hyy, ih (k + 3) hrest, ih k hrest]

/-- The bounded-index list extracted from `range n` is strictly
ascending. -/
theorem boundedIndices_pairwise (vor : VoronoiData) (n : ℕ) :
    (boundedIndices vor (List.range n)).Pairwise (· < ·) :=
  (List.pairwise_lt_range n).sublist (List.filter_sublist _)

/-! ## Concrete tessellation data for closed runs -/

/-- A one-point tessellation whose region ring is empty (the degenerate
configuration SciPy emits e.g. for collinear input). -/
def vorEmptyRing : VoronoiData :=
  { vertices := fun _ => (0, 0)
    regions := fun _ => []
    point_region := fun i => i }

/-- A one-point tessellation whose cell ring `[0, 1, 2]` names three
coincident vertices, so every fan triangle has zero area. -/
def vorDegenerate : VoronoiData :=
  { vertices := fun _ => (1, 0)
    regions := fun _ => [0, 1, 2]
    point_region := fun i => i }

/-- A one-point tessellation whose only cell is unbounded (its ring is the
sentinel `[-1]`). -/
def vorUnbounded : VoronoiData :=
  { vertices := fun _ => (0, 0)
    regions := fun _ => [-1]
    point_region := fun i => i }

/-! ## Claims -/

/-- Claim C1 (code bug): the classifier `not(any(ring == -1))` returns
`bounded = true` on an empty ring — `any` of an empty array is false — so
the claimed "empty ring must be not bounded" fails; the driver then
crashes on such a cell (`argmax` of an empty CDF array raises), which the
embedding records as `none`. -/
theorem claim_C1_empty_ring_bounded :
    booleBounded [] = true ∧
    funVoronoiUniform (fun q => q) vorEmptyRing [0] [0] (fun _ => 0) =
      none := by
  refine ⟨rfl, ?_⟩
  norm_num [funVoronoiUniform, sampleLoop, placeCell, cellRing,
    vorEmptyRing, booleBounded, xxCellOf, yyCellOf, areaTriList,
    cdfAreaOf, cumsum, indexTriOf, List.range_succ]

/-- Claim C2, counterexample: on a bounded cell whose triangle areas sum
to zero the routine does not fail — it still returns a sampled point (the
division by zero makes every CDF comparison false and `argmax` selects
triangle `0`); no `DegenerateCellError` exists in the code. -/
theorem claim_C2_cex_point_produced :
    funVoronoiUniform ratSqrt vorDegenerate [0] [0] randSquare =
      some ([1/2], [0], [0]) := by
  norm_num [funVoronoiUniform, sampleLoop, placeCell, cellRing,
    vorDegenerate, booleBounded, xxCellOf, yyCellOf, areaTriList,
    cdfAreaOf, cumsum, indexTriOf, firstTrue, wrapIdx, sampleTriX,
    randSquare, List.range_succ, abs_of_nonneg, ratSqrt,
    show (4:ℕ) = 2*2 from rfl, Nat.sqrt_eq]

/-- Claim C2, amended: for a bounded cell with a nonempty ring whose
triangle areas sum to zero, no error is raised — the selection and
placement still complete and a sampled point is produced for that cell. -/
theorem claim_C2_amended_no_failure (sq : ℚ → ℚ) (vert : Int → ℚ × ℚ)
    (x0 y0 : ℚ) (ring : List Int) (r r1 r2 : ℚ)
    (hring : ring ≠ []) (_hb : booleBounded ring = true)
    (_hzero : (areaTriList x0 y0 (xxCellOf vert ring)
      (yyCellOf vert ring)).sum = 0) :
    ∃ p, placeCell sq vert x0 y0 ring r r1 r2 = some p :=
  placeCell_eq_some sq vert x0 y0 ring r r1 r2 hring

/-- Witness for the amended C2 at the coincident-vertex cell. -/
theorem claim_C2_amended_witness :
    ∃ p, placeCell ratSqrt vorDegenerate.vertices 0 0 [0, 1, 2]
      (3/10) (1/4) (1/2) = some p :=
  claim_C2_amended_no_failure ratSqrt vorDegenerate.vertices 0 0 [0, 1, 2]
    (3/10) (1/4) (1/2) (by simp) (by rfl)
    (by norm_num [areaTriList, xxCellOf, yyCellOf, vorDegenerate,
      wrapIdx, List.range_succ])

/-- Claim C3: on valid input the driver processes every generating point
through the point-to-region mapping (two tessellations with the same
vertex table and the same composition of regions after the mapping run
identically, so the region index is never taken to be the point index);
it returns exactly one sampled point per bounded cell and none for
unbounded cells, the index list is exactly the bounded point indices in
strictly ascending order, and zero bounded cells give empty results with
no failure. -/
theorem claim_C3_driver_contract (sq : ℚ → ℚ) (vor : VoronoiData)
    (xx yy : List ℚ) (rand : ℕ → ℚ)
    (hvalid : ∀ ii, ii < xx.length →
      booleBounded (cellRing vor ii) = true →
      cellRing vor ii ≠ [] ∧ ii < yy.length) :
    ∃ uu vv idx, funVoronoiUniform sq vor xx yy rand = some (uu, vv, idx) ∧
      idx = boundedIndices vor (List.range xx.length) ∧
      uu.length = idx.length ∧ vv.length = idx.length ∧
      idx.Pairwise (· < ·) ∧
      (idx = [] → uu = [] ∧ vv = []) ∧
      ∀ vor2 : VoronoiData, vor2.vertices = vor.vertices →
        (∀ i, cellRing vor2 i = cellRing vor i) →
        funVoronoiUniform sq vor2 xx yy rand =
          funVoronoiUniform sq vor xx yy rand := by
  obtain ⟨acc, hloop, hmap, -⟩ := sampleLoop_spec sq vor xx yy rand
    (List.range xx.length) 0
    (fun ii hii hb =>
      ⟨(hvalid ii (List.mem_range.mp hii) hb).1, List.mem_range.mp hii,
        (hvalid ii (List.mem_range.mp hii) hb).2⟩)
  refine ⟨acc.map (fun t => t.2.1), acc.map (fun t => t.2.2),
    acc.map (fun t => t.1), ?_, hmap, by simp, by simp, ?_, ?_, ?_⟩
  · rw [funVoronoiUniform, hloop]
  · rw [hmap]
    exact boundedIndices_pairwise vor xx.length
  · intro hnil
    have : acc = [] := List.map_eq_nil.mp hnil
    subst this
    exact ⟨rfl, rfl⟩
  · intro vor2 hvert hring
    rw [funVoronoiUniform, funVoronoiUniform,
      sampleLoop_congr_vor sq vor vor2 xx yy rand hvert hring
        (List.range xx.length) 0]

/-- Witness for C3 on the unit-square tessellation with one bounded
cell. -/
theorem claim_C3_witness :
    ∃ uu vv idx, funVoronoiUniform ratSqrt vorSquare [1/2] [1/2]
        randSquare = some (uu, vv, idx) ∧
      idx = boundedIndices vorSquare (List.range ([(1:ℚ)/2].length)) ∧
      uu.length = idx.length ∧ vv.length = idx.length ∧
      idx.Pairwise (· < ·) ∧
      (idx = [] → uu = [] ∧ vv = []) ∧
      ∀ vor2 : VoronoiData, vor2.vertices = vorSquare.vertices →
        (∀ i, cellRing vor2 i = cellRing vorSquare i) →
        funVoronoiUniform ratSqrt vor2 [1/2] [1/2] randSquare =
          funVoronoiUniform ratSqrt vorSquare [1/2] [1/2] randSquare :=
  claim_C3_driver_contract ratSqrt vorSquare [1/2] [1/2] randSquare
    (by
      intro ii hii hb
      have : ii = 0 := by simpa using hii
      subst this
      exact ⟨by simp [cellRing, vorSquare], by simp⟩)

/-- Claim C4: the selector builds the CDF as the cumulative sum of the
areas divided by the total area, and for a draw `r` in `[0,1)` it selects
the smallest index whose CDF entry is `≥ r` — in particular a draw exactly
equal to a cumulative boundary selects the first index satisfying `≥`. -/
theorem claim_C4_selector_rule (areas : List ℚ) (r : ℚ)
    (hpos : 0 < areas.sum) (_hr0 : 0 ≤ r) (hr1 : r < 1) :
    cdfAreaOf areas = (cumsum areas).map (fun c => c / areas.sum) ∧
    ∃ i ci, indexTriOf r (cdfAreaOf areas) = some i ∧
      (cdfAreaOf areas).get? i = some ci ∧ r ≤ ci ∧
      ∀ j cj, j < i → (cdfAreaOf areas).get? j = some cj → cj < r := by
  refine ⟨rfl, ?_⟩
  have hlast := cdfAreaOf_getLast? areas (ne_of_gt hpos)
  rw [List.getLast?_eq_get?] at hlast
  have h1mem : (1 : ℚ) ∈ cdfAreaOf areas := List.get?_mem hlast
  obtain ⟨i, ci, h1, h2, h3, h4⟩ :=
    indexTriOf_found r (cdfAreaOf areas) h1mem (le_of_lt hr1)
  exact ⟨i, ci, h1, h2, h3, h4⟩

/-- Witness for C4 at the tie case: areas `[1/2, 1/2]` give
CDF `[1/2, 1]`, and the draw `r = 1/2` hits the first boundary exactly. -/
theorem claim_C4_witness :
    cdfAreaOf [1/2, 1/2] =
      (cumsum [1/2, 1/2]).map (fun c => c / ([(1:ℚ)/2, 1/2]).sum) ∧
    ∃ i ci, indexTriOf (1/2) (cdfAreaOf [1/2, 1/2]) = some i ∧
      (cdfAreaOf [1/2, 1/2]).get? i = some ci ∧ 1/2 ≤ ci ∧
      ∀ j cj, j < i → (cdfAreaOf [1/2, 1/2]).get? j = some cj → cj < 1/2 :=
  claim_C4_selector_rule [1/2, 1/2] (1/2)
    (by norm_num) (by norm_num) (by norm_num)

/-- Claim C5, counterexample: at the spec's own square-cell scenario —
apex `(0.5, 0.5)`, triangle vertices `(0,0)` and `(1,0)`, `r1 = 0.25`
(so `s = sqrt r1 = 0.5`), `r2 = 0.5` — the sampler yields `(0.5, 0.25)`,
not the claimed `(0.375, 0.25)`. -/
theorem claim_C5_cex :
    (sampleTriX (1/2) 0 1 (ratSqrt (1/4)) (1/2),
      sampleTriX (1/2) 0 0 (ratSqrt (1/4)) (1/2)) ≠ ((3:ℚ)/8, 1/4) := by
  have hs : ratSqrt (1/4) = 1/2 := by
    norm_num [ratSqrt, show (4:ℕ) = 2*2 from rfl, Nat.sqrt_eq]
  simp only [hs, Prod.mk.injEq, sampleTriX, not_and]
  intro h
  norm_num at h

/-- Claim C5, amended: the sampler computes
`(1-s)·A + s·(1-r2)·B + s·r2·C` coordinatewise with `s = sqrt r1`, and at
the concrete scenario (apex `(0.5,0.5)`, vertices `(0,0)`, `(1,0)`,
`r1 = 0.25`, `r2 = 0.5`) the sampled point is `(0.5, 0.25)`. -/
theorem claim_C5_amended :
    (∀ x0 x1 x2 s r2 : ℚ, sampleTriX x0 x1 x2 s r2 =
      (1 - s) * x0 + s * (1 - r2) * x1 + s * r2 * x2) ∧
    sampleTriX (1/2) 0 1 (ratSqrt (1/4)) (1/2) = 1/2 ∧
    sampleTriX (1/2) 0 0 (ratSqrt (1/4)) (1/2) = 1/4 := by
  have hs : ratSqrt (1/4) = 1/2 := by
    norm_num [ratSqrt, show (4:ℕ) = 2*2 from rfl, Nat.sqrt_eq]
  refine ⟨fun x0 x1 x2 s r2 => rfl, ?_, ?_⟩
  · rw [hs]
    simp only [sampleTriX]
    norm_num
  · rw [hs]
    simp only [sampleTriX]
    norm_num

/-- Claim C6: on a ring of `m ≥ 3` vertices the triangulator produces
exactly `m` areas; the `i`-th equals the absolute 2-D cross product of
`(V[i]-P)` and `(V[(i+1) mod m]-P)` divided by two (so the last triangle
wraps back to `V[0]`), and every area is non-negative. -/
theorem claim_C6_triangulator (x0 y0 : ℚ) (xs ys : List ℚ)
    (_hm : 3 ≤ xs.length) :
    (areaTriList x0 y0 xs ys).length = xs.length ∧
    (∀ i, i < xs.length →
      (areaTriList x0 y0 xs ys).get? i = some
        (|(xs.getD i 0 - x0) * (ys.getD ((i + 1) % xs.length) 0 - y0) -
          (xs.getD ((i + 1) % xs.length) 0 - x0) *
            (ys.getD i 0 - y0)| / 2)) ∧
    ∀ a ∈ areaTriList x0 y0 xs ys, 0 ≤ a := by
  refine ⟨areaTriList_length x0 y0 xs ys, ?_, ?_⟩
  · intro i hi
    have hwrap : wrapIdx xs.length i = (i + 1) % xs.length := by
      unfold wrapIdx
      by_cases h : i + 1 = xs.length
      · rw [if_pos h, h, Nat.mod_self]
      · rw [if_neg h, Nat.mod_eq_of_lt (by omega)]
    rw [areaTriList, List.get?_map, List.get?_range hi]
    simp only [Option.map_some']
    rw [hwrap]
  · intro a ha
    rw [areaTriList, List.mem_map] at ha
    obtain ⟨i, -, rfl⟩ := ha
    positivity

/-- Witness for C6 on the triangle ring `(0,0), (1,0), (0,1)` with apex
the origin. -/
theorem claim_C6_witness :
    (areaTriList 0 0 [0, 1, 0] [0, 0, 1]).length = [(0:ℚ), 1, 0].length ∧
    (∀ i, i < [(0:ℚ), 1, 0].length →
      (areaTriList 0 0 [0, 1, 0] [0, 0, 1]).get? i = some
        (|(([(0:ℚ), 1, 0]).getD i 0 - 0) *
            (([(0:ℚ), 0, 1]).getD ((i + 1) % [(0:ℚ), 1, 0].length) 0 - 0) -
          (([(0:ℚ), 1, 0]).getD ((i + 1) % [(0:ℚ), 1, 0].length) 0 - 0) *
            (([(0:ℚ), 0, 1]).getD i 0 - 0)| / 2)) ∧
    ∀ a ∈ areaTriList 0 0 [0, 1, 0] [0, 0, 1], 0 ≤ a :=
  claim_C6_triangulator 0 0 [0, 1, 0] [0, 0, 1] (by simp)

/-- Claim C7: for draws `r1, r2` in `[0,1)` and `s = sqrt r1` the sampled
point is a convex combination of the triangle's vertices (non-negative
barycentric coefficients summing to one), hence lies in the closed
triangle. -/
theorem claim_C7_sample_in_triangle (a b c : ℚ × ℚ) (r1 r2 s : ℚ)
    (_h1 : 0 ≤ r1) (h2 : r1 < 1) (h3 : 0 ≤ r2) (h4 : r2 < 1)
    (hs : 0 ≤ s) (hsq : s ^ 2 = r1) :
    memTriangle (sampleTriX a.1 b.1 c.1 s r2, sampleTriX a.2 b.2 c.2 s r2)
      a b c := by
  have hs1 : s ≤ 1 := by nlinarith
  exact ⟨1 - s, s * (1 - r2), s * r2, by linarith,
    mul_nonneg hs (by linarith), mul_nonneg hs h3, by ring, rfl, rfl⟩

/-- Witness for C7 with `r1 = 1/4`, `s = 1/2`, `r2 = 1/2` on the triangle
`(1/2,1/2), (0,0), (1,0)`. -/
theorem claim_C7_witness :
    memTriangle
      (sampleTriX ((1:ℚ)/2, (1:ℚ)/2).1 ((0:ℚ), (0:ℚ)).1 ((1:ℚ), (0:ℚ)).1
        (1/2) (1/2),
       sampleTriX ((1:ℚ)/2, (1:ℚ)/2).2 ((0:ℚ), (0:ℚ)).2 ((1:ℚ), (0:ℚ)).2
        (1/2) (1/2))
      ((1:ℚ)/2, (1:ℚ)/2) ((0:ℚ), (0:ℚ)) ((1:ℚ), (0:ℚ)) :=
  claim_C7_sample_in_triangle ((1:ℚ)/2, (1:ℚ)/2) ((0:ℚ), (0:ℚ))
    ((1:ℚ), (0:ℚ)) (1/4) (1/2) (1/2)
    (by norm_num) (by norm_num) (by norm_num) (by norm_num)
    (by norm_num) (by norm_num)

/-- Claim C8: each bounded cell consumes exactly 3 draws — the selection
draw first, then the two barycentric draws — and other cells consume
none: a successful run uses exactly `3·#bounded` draws, the `n`-th
bounded cell reads positions `3n, 3n+1, 3n+2` in that role order, and two
streams agreeing on the consumed prefix produce identical outputs. -/
theorem claim_C8_draw_contract (sq : ℚ → ℚ) (vor : VoronoiData)
    (xx yy : List ℚ) (rand rand2 : ℕ → ℚ)
    (hagree : ∀ j, j < 3 * (boundedIndices vor (List.range xx.length)).length →
      rand j = rand2 j)
    (hvalid : ∀ ii, ii < xx.length →
      booleBounded (cellRing vor ii) = true →
      cellRing vor ii ≠ [] ∧ ii < yy.length) :
    funVoronoiUniform sq vor xx yy rand =
      funVoronoiUniform sq vor xx yy rand2 ∧
    drawsUsed sq vor xx yy rand =
      some (3 * (boundedIndices vor (List.range xx.length)).length) ∧
    ∀ n ii, (boundedIndices vor (List.range xx.length)).get? n = some ii →
      ∃ x0 y0 p, xx.get? ii = some x0 ∧ yy.get? ii = some y0 ∧
        placeCell sq vor.vertices x0 y0 (cellRing vor ii)
          (rand (3 * n)) (rand (3 * n + 1)) (rand (3 * n + 2)) = some p := by
  obtain ⟨acc, hloop, -, hper⟩ := sampleLoop_spec sq vor xx yy rand
    (List.range xx.length) 0
    (fun ii hii hb =>
      ⟨(hvalid ii (List.mem_range.mp hii) hb).1, List.mem_range.mp hii,
        (hvalid ii (List.mem_range.mp hii) hb).2⟩)
  refine ⟨?_, ?_, ?_⟩
  · rw [funVoronoiUniform, funVoronoiUniform,
      sampleLoop_congr_rand sq vor xx yy rand rand2 (List.range xx.length) 0
        (fun j _ hj => hagree j (by omega))]
  · rw [drawsUsed, hloop]
    norm_num
  · intro n ii hii
    obtain ⟨x0, y0, p, h1, h2, h3, -⟩ := hper n ii hii
    refine ⟨x0, y0, p, h1, h2, ?_⟩
    have e : 0 + 3 * n = 3 * n := by ring
    rw [e] at h3
    exact h3

/-- Witness for C8 on the square tessellation: a stream differing from
`randSquare` from position 3 onwards yields the identical run, which
consumes exactly 3 draws for its single bounded cell. -/
theorem claim_C8_witness :
    funVoronoiUniform ratSqrt vorSquare [1/2] [1/2] randSquare =
      funVoronoiUniform ratSqrt vorSquare [1/2] [1/2]
        (fun n => if n < 3 then randSquare n else 7) ∧
    drawsUsed ratSqrt vorSquare [1/2] [1/2] randSquare =
      some (3 * (boundedIndices vorSquare
        (List.range ([(1:ℚ)/2].length))).length) ∧
    ∀ n ii, (boundedIndices vorSquare
        (List.range ([(1:ℚ)/2].length))).get? n = some ii →
      ∃ x0 y0 p, ([(1:ℚ)/2]).get? ii = some x0 ∧
        ([(1:ℚ)/2]).get? ii = some y0 ∧
        placeCell ratSqrt vorSquare.vertices x0 y0 (cellRing vorSquare ii)
          (randSquare (3 * n)) (randSquare (3 * n + 1))
          (randSquare (3 * n + 2)) = some p :=
  claim_C8_draw_contract ratSqrt vorSquare [1/2] [1/2] randSquare
    (fun n => if n < 3 then randSquare n else 7)
    (by
      intro j hj
      have hlen : (boundedIndices vorSquare
          (List.range ([(1:ℚ)/2].length))).length = 1 := by
        simp [boundedIndices, List.range_succ, cellRing, vorSquare,
          booleBounded]
      rw [hlen] at hj
      show randSquare j = if j < 3 then randSquare j else 7
      rw [if_pos (show j < 3 by omega)])
    (by
      intro ii hii hb
      have : ii = 0 := by simpa using hii
      subst this
      exact ⟨by simp [cellRing, vorSquare], by simp⟩)

/-- Claim C9, counterexample: with one generating point but two
y-coordinates (mismatched input lengths) the driver does not fail — there
is no `InvalidInputError` in the code; the run completes and returns the
empty result triple (the single cell is unbounded). -/
theorem claim_C9_cex :
    funVoronoiUniform (fun q => q) vorUnbounded [0] [0, 5] (fun _ => 0) =
      some ([], [], []) := by
  norm_num [funVoronoiUniform, sampleLoop, cellRing, vorUnbounded,
    booleBounded, List.range_succ]

/-- Claim C9, amended: the driver validates nothing — the cell count is
taken from `len(xx)` alone and entries of `yy` beyond it are silently
ignored: truncating `yy` to `len(xx)` never changes the result (a short
`yy` can only surface as an out-of-range access inside the loop). -/
theorem claim_C9_amended (sq : ℚ → ℚ) (vor : VoronoiData)
    (xx yy : List ℚ) (rand : ℕ → ℚ) :
    funVoronoiUniform sq vor xx yy rand =
      funVoronoiUniform sq vor xx (yy.take xx.length) rand := by
  rw [funVoronoiUniform, funVoronoiUniform,
    sampleLoop_take_yy sq vor xx yy rand (List.range xx.length) 0
      (fun ii hii => List.mem_range.mp hii)]

/-- Claim C10: for a bounded cell whose areas may include zeros but whose
total is positive, selection cannot fail: the final normalized CDF entry
is exactly `1`, so every draw `r` in `[0,1)` finds an index with
`CDF[i] ≥ r`, and the selected index is a valid triangle index. -/
theorem claim_C10_cdf_reaches_one (areas : List ℚ) (r : ℚ)
    (_hz : (0:ℚ) ∈ areas) (hpos : 0 < areas.sum)
    (_hr0 : 0 ≤ r) (hr1 : r < 1) :
    (cdfAreaOf areas).getLast? = some 1 ∧
    ∃ i ci, indexTriOf r (cdfAreaOf areas) = some i ∧ i < areas.length ∧
      (cdfAreaOf areas).get? i = some ci ∧ r ≤ ci := by
  have hlast := cdfAreaOf_getLast? areas (ne_of_gt hpos)
  refine ⟨hlast, ?_⟩
  rw [List.getLast?_eq_get?] at hlast
  have h1mem : (1 : ℚ) ∈ cdfAreaOf areas := List.get?_mem hlast
  obtain ⟨i, ci, h1, h2, h3, -⟩ :=
    indexTriOf_found r (cdfAreaOf areas) h1mem (le_of_lt hr1)
  refine ⟨i, ci, h1, ?_, h2, h3⟩
  have hlt : i < (cdfAreaOf areas).length := by
    by_contra hge
    rw [List.get?_eq_none.mpr (Nat.le_of_not_lt hge)] at h2
    exact Option.noConfusion h2
  rw [cdfAreaOf_length] at hlt
  exact hlt

/-- Witness for C10 with a zero first-triangle area: areas `[0, 1/2]`
give CDF `[0, 1]` and the draw `1/2` selects triangle index `1`. -/
theorem claim_C10_witness :
    (cdfAreaOf [0, 1/2]).getLast? = some 1 ∧
    ∃ i ci, indexTriOf (1/2) (cdfAreaOf [0, 1/2]) = some i ∧
      i < [(0:ℚ), 1/2].length ∧
      (cdfAreaOf [0, 1/2]).get? i = some ci ∧ 1/2 ≤ ci :=
  claim_C10_cdf_reaches_one [0, 1/2] (1/2)
    (by norm_num) (by norm_num) (by norm_num) (by norm_num)

/-- Sanity run of the whole driver on the spec's square scenario: the
areas are `[1/4, 1/4, 1/4, 1/4]`, so the CDF is `[1/4, 1/2, 3/4, 1]`, the
selection draw `0.3` picks triangle index `1` — spanning `(1,0), (1,1)`,
not the spec's claimed triangle `0` — and with `s = sqrt(1/4) = 1/2`,
`r2 = 1/2` the sampled point is `(3/4, 1/2)`. -/
theorem funVoronoiUniform_square_run :
    funVoronoiUniform ratSqrt vorSquare [1/2] [1/2] randSquare =
      some ([3/4], [1/2], [0]) := by
  norm_num [funVoronoiUniform, sampleLoop, placeCell, xxCellOf, yyCellOf,
    areaTriList, cumsum, cdfAreaOf, indexTriOf, firstTrue, wrapIdx,
    sampleTriX, vorSquare, randSquare, cellRing, booleBounded,
    List.range_succ, ratSqrt, abs_of_nonneg,
    show (4:ℕ) = 2*2 from rfl, Nat.sqrt_eq]
